import Mathlib

/-!
# Verification of the pippiroh peer-to-peer chat core

This file gives a shallow embedding of the core of the repository
(src/lib.rs, src/p2p.rs, src/main.rs) and proves the testable properties of
its specification against it.

Modelling conventions:

* Bytes are `Nat` values; well-formedness predicates carry the `< 256`
  bounds where they matter.
* Rust strings appear at the byte level: a string is the list of its UTF-8
  bytes, and the decoder validates UTF-8 exactly where Rust's
  `String::from_utf8` would.
* The wire codec is bincode with `bincode::config::standard()` (the
  repository's `BINCODE_CONFIG`): variable-length integer encoding for
  lengths, ports and enum variant indices, fixed arrays as raw bytes,
  `Option` as a one-byte tag, sequences as a length followed by the
  elements.
* The ticket text codec is `data_encoding::BASE32_NOPAD` (RFC 4648
  alphabet, no padding, trailing-bit check on decode), composed with ASCII
  case folding as in the `Display`/`FromStr` implementations of
  `P2PTicket`.
* External collaborator types that the repository serializes but does not
  define (iroh's `NodeAddr`, `NodeId`, `RelayUrl`, `TopicId`, std's
  `SocketAddr`) are modelled by their serialized shape: a node id and a
  topic id are 32 opaque bytes, a relay URL is a string, a socket address
  is a V4/V6 tagged pair of raw IP octets and a port, and a node address
  is the triple of those. The set of direct addresses is modelled as the
  list in which its elements are serialized (the sorted iteration order of
  the Rust `BTreeSet`).
* Fallible operations return `Option`/`Except`; `None` stands for the
  error case (`anyhow::Error` wrapping `DecodeError`/`DecodePartial`), and
  an explicit outcome type stands for a panic where the code panics.
-/

/-! ## ASCII case folding

Models `str::to_ascii_uppercase` and `String::make_ascii_lowercase`, byte
by byte: ASCII letters are folded, every other byte is untouched. -/

/-- Byte-level model of Rust ASCII uppercasing: lowercase ASCII letters map
to uppercase, all other bytes are unchanged. -/
def asciiUpper (b : Nat) : Nat :=
  if 97 ≤ b ∧ b ≤ 122 then b - 32 else b

/-- Byte-level model of Rust ASCII lowercasing: uppercase ASCII letters map
to lowercase, all other bytes are unchanged. -/
def asciiLower (b : Nat) : Nat :=
  if 65 ≤ b ∧ b ≤ 90 then b + 32 else b

theorem asciiUpper_asciiUpper (b : Nat) : asciiUpper (asciiUpper b) = asciiUpper b := by
  unfold asciiUpper
  split_ifs <;> omega

theorem asciiUpper_asciiLower (b : Nat) : asciiUpper (asciiLower b) = asciiUpper b := by
  unfold asciiUpper asciiLower
  split_ifs <;> omega

/-! ## Base-32 text codec (`data_encoding::BASE32_NOPAD`)

RFC 4648 base-32: the byte stream is cut into 5-bit groups (most
significant bit first), each group becomes one symbol of the alphabet
`A..Z 2..7`; no padding is emitted. Decoding rejects symbols outside the
alphabet, rejects the impossible unpadded lengths (1, 3 or 6 symbols mod
8), and rejects non-zero trailing bits (the default `check_trailing_bits`
of `data_encoding`). The 5-bit arithmetic is written with `/`, `%`, `*`
and `+`, which on bounded bytes is exactly the bit splicing of the RFC. -/

/-- Alphabet of RFC 4648 base 32: symbol value 0..25 to letters A..Z
(bytes 65..90), values 26..31 to digits 2..7 (bytes 50..55). -/
def b32char (v : Nat) : Nat :=
  if v < 26 then 65 + v else 50 + (v - 26)

/-- Inverse alphabet lookup: uppercase letters and digits 2..7 map to their
symbol value, every other byte is rejected. -/
def b32charVal (b : Nat) : Option Nat :=
  if 65 ≤ b ∧ b ≤ 90 then some (b - 65)
  else if 50 ≤ b ∧ b ≤ 55 then some (26 + (b - 50))
  else none

/-- Base-32 encoding of a byte list into symbol values: full blocks of 5
bytes become 8 symbols; a final partial block of 1, 2, 3 or 4 bytes becomes
2, 4, 5 or 7 symbols, its unused low bits zero. -/
def b32encBytes : List Nat → List Nat
  | b0 :: b1 :: b2 :: b3 :: b4 :: rest =>
      (b0 / 8) :: ((b0 % 8) * 4 + b1 / 64) :: ((b1 / 2) % 32) :: ((b1 % 2) * 16 + b2 / 16) ::
      ((b2 % 16) * 2 + b3 / 128) :: ((b3 / 4) % 32) :: ((b3 % 4) * 8 + b4 / 32) :: (b4 % 32) ::
      b32encBytes rest
  | [] => []
  | [b0] => [b0 / 8, (b0 % 8) * 4]
  | [b0, b1] => [b0 / 8, (b0 % 8) * 4 + b1 / 64, (b1 / 2) % 32, (b1 % 2) * 16]
  | [b0, b1, b2] =>
      [b0 / 8, (b0 % 8) * 4 + b1 / 64, (b1 / 2) % 32, (b1 % 2) * 16 + b2 / 16,
       (b2 % 16) * 2]
  | [b0, b1, b2, b3] =>
      [b0 / 8, (b0 % 8) * 4 + b1 / 64, (b1 / 2) % 32, (b1 % 2) * 16 + b2 / 16,
       (b2 % 16) * 2 + b3 / 128, (b3 / 4) % 32, (b3 % 4) * 8]

/-- Base-32 decoding of a symbol-value list back to bytes: greedy full
blocks of 8 symbols, then a final partial block whose trailing bits must be
zero; symbol counts of 1, 3 or 6 mod 8 are impossible without padding and
are rejected. -/
def b32decSyms : List Nat → Option (List Nat)
  | s0 :: s1 :: s2 :: s3 :: s4 :: s5 :: s6 :: s7 :: rest =>
      match b32decSyms rest with
      | none => none
      | some bs =>
          some ((s0 * 8 + s1 / 4) :: ((s1 % 4) * 64 + s2 * 2 + s3 / 16) ::
                ((s3 % 16) * 16 + s4 / 2) :: ((s4 % 2) * 128 + s5 * 4 + s6 / 8) ::
                ((s6 % 8) * 32 + s7) :: bs)
  | [] => some []
  | [s0, s1] => if s1 % 4 = 0 then some [s0 * 8 + s1 / 4] else none
  | [s0, s1, s2, s3] =>
      if s3 % 16 = 0 then some [s0 * 8 + s1 / 4, (s1 % 4) * 64 + s2 * 2 + s3 / 16]
      else none
  | [s0, s1, s2, s3, s4] =>
      if s4 % 2 = 0 then
        some [s0 * 8 + s1 / 4, (s1 % 4) * 64 + s2 * 2 + s3 / 16, (s3 % 16) * 16 + s4 / 2]
      else none
  | [s0, s1, s2, s3, s4, s5, s6] =>
      if s6 % 8 = 0 then
        some [s0 * 8 + s1 / 4, (s1 % 4) * 64 + s2 * 2 + s3 / 16, (s3 % 16) * 16 + s4 / 2,
              (s4 % 2) * 128 + s5 * 4 + s6 / 8]
      else none
  | _ => none

theorem b32decSyms_b32encBytes :
    ∀ bs : List Nat, (∀ b ∈ bs, b < 256) → b32decSyms (b32encBytes bs) = some bs
  | b0 :: b1 :: b2 :: b3 :: b4 :: rest => by
      intro h
      have h0 : b0 < 256 := h b0 (by simp)
      have h1 : b1 < 256 := h b1 (by simp)
      have h2 : b2 < 256 := h b2 (by simp)
      have h3 : b3 < 256 := h b3 (by simp)
      have h4 : b4 < 256 := h b4 (by simp)
      have ih := b32decSyms_b32encBytes rest (fun b hb => h b (by simp [hb]))
      simp only [b32encBytes, b32decSyms, ih]
      refine congrArg some ?_
      have e0 : b0 / 8 * 8 + (b0 % 8 * 4 + b1 / 64) / 4 = b0 := by omega
      have e1 : (b0 % 8 * 4 + b1 / 64) % 4 * 64 + b1 / 2 % 32 * 2 +
          (b1 % 2 * 16 + b2 / 16) / 16 = b1 := by omega
      have e2 : (b1 % 2 * 16 + b2 / 16) % 16 * 16 + (b2 % 16 * 2 + b3 / 128) / 2 = b2 := by
        omega
      have e3 : (b2 % 16 * 2 + b3 / 128) % 2 * 128 + b3 / 4 % 32 * 4 +
          (b3 % 4 * 8 + b4 / 32) / 8 = b3 := by omega
      have e4 : (b3 % 4 * 8 + b4 / 32) % 8 * 32 + b4 % 32 = b4 := by omega
      rw [e0, e1, e2, e3, e4]
  | [] => by intro _; rfl
  | [b0] => by
      intro h
      have h0 : b0 < 256 := h b0 (by simp)
      simp only [b32encBytes, b32decSyms]
      have ht : b0 % 8 * 4 % 4 = 0 := by omega
      rw [if_pos ht]
      have e0 : b0 / 8 * 8 + b0 % 8 * 4 / 4 = b0 := by omega
      rw [e0]
  | [b0, b1] => by
      intro h
      have h0 : b0 < 256 := h b0 (by simp)
      have h1 : b1 < 256 := h b1 (by simp)
      simp only [b32encBytes, b32decSyms]
      have ht : b1 % 2 * 16 % 16 = 0 := by omega
      rw [if_pos ht]
      have e0 : b0 / 8 * 8 + (b0 % 8 * 4 + b1 / 64) / 4 = b0 := by omega
      have e1 : (b0 % 8 * 4 + b1 / 64) % 4 * 64 + b1 / 2 % 32 * 2 + b1 % 2 * 16 / 16 = b1 := by
        omega
      rw [e0, e1]
  | [b0, b1, b2] => by
      intro h
      have h0 : b0 < 256 := h b0 (by simp)
      have h1 : b1 < 256 := h b1 (by simp)
      have h2 : b2 < 256 := h b2 (by simp)
      simp only [b32encBytes, b32decSyms]
      have ht : b2 % 16 * 2 % 2 = 0 := by omega
      rw [if_pos ht]
      have e0 : b0 / 8 * 8 + (b0 % 8 * 4 + b1 / 64) / 4 = b0 := by omega
      have e1 : (b0 % 8 * 4 + b1 / 64) % 4 * 64 + b1 / 2 % 32 * 2 +
          (b1 % 2 * 16 + b2 / 16) / 16 = b1 := by omega
      have e2 : (b1 % 2 * 16 + b2 / 16) % 16 * 16 + b2 % 16 * 2 / 2 = b2 := by omega
      rw [e0, e1, e2]
  | [b0, b1, b2, b3] => by
      intro h
      have h0 : b0 < 256 := h b0 (by simp)
      have h1 : b1 < 256 := h b1 (by simp)
      have h2 : b2 < 256 := h b2 (by simp)
      have h3 : b3 < 256 := h b3 (by simp)
      simp only [b32encBytes, b32decSyms]
      have ht : b3 % 4 * 8 % 8 = 0 := by omega
      rw [if_pos ht]
      have e0 : b0 / 8 * 8 + (b0 % 8 * 4 + b1 / 64) / 4 = b0 := by omega
      have e1 : (b0 % 8 * 4 + b1 / 64) % 4 * 64 + b1 / 2 % 32 * 2 +
          (b1 % 2 * 16 + b2 / 16) / 16 = b1 := by omega
      have e2 : (b1 % 2 * 16 + b2 / 16) % 16 * 16 + (b2 % 16 * 2 + b3 / 128) / 2 = b2 := by
        omega
      have e3 : (b2 % 16 * 2 + b3 / 128) % 2 * 128 + b3 / 4 % 32 * 4 + b3 % 4 * 8 / 8 = b3 := by
        omega
      rw [e0, e1, e2, e3]

theorem b32encBytes_lt (bs : List Nat) (h : ∀ b ∈ bs, b < 256) :
    ∀ v ∈ b32encBytes bs, v < 32 := by
  induction bs using b32encBytes.induct with
  | case1 b0 b1 b2 b3 b4 rest ih =>
      have h0 : b0 < 256 := h b0 (by simp)
      have h1 : b1 < 256 := h b1 (by simp)
      have h2 : b2 < 256 := h b2 (by simp)
      have h3 : b3 < 256 := h b3 (by simp)
      have h4 : b4 < 256 := h b4 (by simp)
      have ih2 := ih (fun b hb => h b (by simp [hb]))
      intro v hv
      simp only [b32encBytes, List.mem_cons] at hv
      rcases hv with rfl | rfl | rfl | rfl | rfl | rfl | rfl | rfl | hv
      all_goals first
        | omega
        | exact ih2 v hv
  | case2 =>
      intro v hv
      simp [b32encBytes] at hv
  | case3 b0 =>
      have h0 : b0 < 256 := h b0 (by simp)
      intro v hv
      simp only [b32encBytes, List.mem_cons, List.not_mem_nil, or_false] at hv
      rcases hv with rfl | rfl <;> omega
  | case4 b0 b1 =>
      have h0 : b0 < 256 := h b0 (by simp)
      have h1 : b1 < 256 := h b1 (by simp)
      intro v hv
      simp only [b32encBytes, List.mem_cons, List.not_mem_nil, or_false] at hv
      rcases hv with rfl | rfl | rfl | rfl <;> omega
  | case5 b0 b1 b2 =>
      have h0 : b0 < 256 := h b0 (by simp)
      have h1 : b1 < 256 := h b1 (by simp)
      have h2 : b2 < 256 := h b2 (by simp)
      intro v hv
      simp only [b32encBytes, List.mem_cons, List.not_mem_nil, or_false] at hv
      rcases hv with rfl | rfl | rfl | rfl | rfl <;> omega
  | case6 b0 b1 b2 b3 =>
      have h0 : b0 < 256 := h b0 (by simp)
      have h1 : b1 < 256 := h b1 (by simp)
      have h2 : b2 < 256 := h b2 (by simp)
      have h3 : b3 < 256 := h b3 (by simp)
      intro v hv
      simp only [b32encBytes, List.mem_cons, List.not_mem_nil, or_false] at hv
      rcases hv with rfl | rfl | rfl | rfl | rfl | rfl | rfl <;> omega

theorem b32charVal_b32char (v : Nat) (h : v < 32) : b32charVal (b32char v) = some v := by
  interval_cases v <;> rfl

theorem asciiUpper_asciiLower_b32char (v : Nat) (h : v < 32) :
    asciiUpper (asciiLower (b32char v)) = b32char v := by
  interval_cases v <;> rfl

/-! ## Bincode wire codec (`bincode::config::standard()`)

The standard configuration of bincode 2: little-endian, variable-length
integer encoding, no size limit. Collection lengths and enum variant
indices are unsigned varints: a value below 251 is one byte, otherwise a
marker byte 251/252/253 is followed by the little-endian u16/u32/u64. A
fixed array is its raw bytes, an `Option` is a one-byte tag 0/1, a string
is its length followed by its UTF-8 bytes (decoding validates UTF-8), a
sequence is its length followed by its elements. -/

/-- Little-endian two-byte encoding of a u16. -/
def u16LE (n : Nat) : List Nat := [n % 256, n / 256 % 256]

/-- Little-endian four-byte encoding of a u32. -/
def u32LE (n : Nat) : List Nat :=
  [n % 256, n / 256 % 256, n / 65536 % 256, n / 16777216 % 256]

/-- Little-endian eight-byte encoding of a u64. -/
def u64LE (n : Nat) : List Nat := u32LE (n % 4294967296) ++ u32LE (n / 4294967296)

/-- Bincode varint encoding of an unsigned integer. -/
def varintEnc (n : Nat) : List Nat :=
  if n < 251 then [n]
  else if n < 65536 then 251 :: u16LE n
  else if n < 4294967296 then 252 :: u32LE n
  else 253 :: u64LE n

/-- Bincode varint decoding; markers that do not fit a u64 are rejected. -/
def varintDec : List Nat → Option (Nat × List Nat)
  | [] => none
  | b :: r =>
    if b < 251 then some (b, r)
    else if b = 251 then
      match r with
      | a0 :: a1 :: r2 => some (a0 + 256 * a1, r2)
      | _ => none
    else if b = 252 then
      match r with
      | a0 :: a1 :: a2 :: a3 :: r2 =>
          some (a0 + 256 * a1 + 65536 * a2 + 16777216 * a3, r2)
      | _ => none
    else if b = 253 then
      match r with
      | a0 :: a1 :: a2 :: a3 :: a4 :: a5 :: a6 :: a7 :: r2 =>
          some (a0 + 256 * a1 + 65536 * a2 + 16777216 * a3 + 4294967296 * a4 +
                1099511627776 * a5 + 281474976710656 * a6 + 72057594037927936 * a7, r2)
      | _ => none
    else none

theorem varintDec_varintEnc (n : Nat) (h : n < 18446744073709551616) (rest : List Nat) :
    varintDec (varintEnc n ++ rest) = some (n, rest) := by
  unfold varintEnc
  split_ifs with h1 h2 h3
  · simp [varintDec, h1]
  · simp only [u16LE, List.cons_append, varintDec]
    norm_num
    omega
  · simp only [u32LE, List.cons_append, varintDec]
    norm_num
    omega
  · simp only [u64LE, u32LE, List.cons_append, List.append_assoc, varintDec]
    norm_num
    omega

theorem varintEnc_lt (n : Nat) : ∀ b ∈ varintEnc n, b < 256 := by
  unfold varintEnc u64LE u32LE u16LE
  split_ifs <;> intro b hb <;> simp at hb <;> omega

/-- Reads exactly `k` bytes from the front of the input, failing on
end-of-input. -/
def readBytes (k : Nat) (l : List Nat) : Option (List Nat × List Nat) :=
  if k ≤ l.length then some (l.take k, l.drop k) else none

theorem readBytes_append (bs rest : List Nat) :
    readBytes bs.length (bs ++ rest) = some (bs, rest) := by
  unfold readBytes
  rw [if_pos (by simp)]
  rw [List.take_left, List.drop_left]

/-- Continuation byte test for UTF-8: bytes 0x80..0xBF. -/
def isUtf8Cont (b : Nat) : Bool := 128 ≤ b && b < 192

/-- UTF-8 validity of a byte list, as checked by Rust's
`String::from_utf8`: one- to four-byte sequences with the standard lead
ranges, continuation bytes, and the overlong/surrogate/out-of-range
exclusions on the second byte. -/
def utf8Valid : List Nat → Bool
  | [] => true
  | b :: r =>
    if b < 128 then utf8Valid r
    else if b < 194 then false
    else if b < 224 then
      match r with
      | c1 :: r2 => isUtf8Cont c1 && utf8Valid r2
      | [] => false
    else if b < 240 then
      match r with
      | c1 :: c2 :: r2 =>
          (if b = 224 then decide (160 ≤ c1 ∧ c1 < 192)
           else if b = 237 then decide (128 ≤ c1 ∧ c1 < 160)
           else isUtf8Cont c1) && isUtf8Cont c2 && utf8Valid r2
      | _ => false
    else if b < 245 then
      match r with
      | c1 :: c2 :: c3 :: r2 =>
          (if b = 240 then decide (144 ≤ c1 ∧ c1 < 192)
           else if b = 244 then decide (128 ≤ c1 ∧ c1 < 144)
           else isUtf8Cont c1) && isUtf8Cont c2 && isUtf8Cont c3 && utf8Valid r2
      | _ => false
    else false

/-- Bincode encoding of a string: varint byte length, then the UTF-8
bytes. -/
def encStr (s : List Nat) : List Nat := varintEnc s.length ++ s

/-- Bincode decoding of a string: read the length, take that many bytes,
validate UTF-8. -/
def decStr (l : List Nat) : Option (List Nat × List Nat) := do
  let (n, r) ← varintDec l
  let (s, r2) ← readBytes n r
  if utf8Valid s then pure (s, r2) else none

/-- Bincode encoding of an `Option`: tag byte 0 for `None`, tag byte 1
followed by the payload for `Some`. -/
def encOption (f : α → List Nat) : Option α → List Nat
  | none => [0]
  | some a => 1 :: f a

/-- Bincode decoding of an `Option`. -/
def decOption (f : List Nat → Option (α × List Nat)) : List Nat → Option (Option α × List Nat)
  | 0 :: r => some (none, r)
  | 1 :: r => do
      let (a, r2) ← f r
      pure (some a, r2)
  | _ => none

/-- Bincode encoding of a sequence: varint element count, then the encoded
elements in order. -/
def encList (f : α → List Nat) (l : List α) : List Nat :=
  varintEnc l.length ++ (l.map f).flatten

/-- Decodes exactly `n` consecutive elements. -/
def decListN (f : List Nat → Option (α × List Nat)) : Nat → List Nat → Option (List α × List Nat)
  | 0, l => some ([], l)
  | n + 1, l => do
      let (a, r) ← f l
      let (as, r2) ← decListN f n r
      pure (a :: as, r2)

/-- Bincode decoding of a sequence: read the element count, then that many
elements. -/
def decList (f : List Nat → Option (α × List Nat)) (l : List Nat) :
    Option (List α × List Nat) := do
  let (n, r) ← varintDec l
  decListN f n r

theorem decStr_encStr (s : List Nat) (h : s.length < 18446744073709551616)
    (hu : utf8Valid s = true) (rest : List Nat) :
    decStr (encStr s ++ rest) = some (s, rest) := by
  unfold decStr encStr
  rw [List.append_assoc, varintDec_varintEnc s.length h]
  simp [readBytes_append, hu]

theorem decListN_append {α : Type} (f : List Nat → Option (α × List Nat)) (enc : α → List Nat)
    (l : List α) (hf : ∀ a ∈ l, ∀ rest, f (enc a ++ rest) = some (a, rest)) (rest : List Nat) :
    decListN f l.length ((l.map enc).flatten ++ rest) = some (l, rest) := by
  induction l with
  | nil => simp [decListN]
  | cons a as ih =>
      simp only [List.map_cons, List.flatten_cons, List.length_cons, List.append_assoc]
      rw [decListN]
      rw [hf a (by simp)]
      simp only [Option.bind_eq_bind, Option.some_bind]
      rw [ih (fun a ha rest => hf a (by simp [ha]) rest)]
      rfl

theorem decList_encList {α : Type} (f : List Nat → Option (α × List Nat)) (enc : α → List Nat)
    (l : List α) (hl : l.length < 18446744073709551616)
    (hf : ∀ a ∈ l, ∀ rest, f (enc a ++ rest) = some (a, rest)) (rest : List Nat) :
    decList f (encList enc l ++ rest) = some (l, rest) := by
  unfold decList encList
  rw [List.append_assoc, varintDec_varintEnc l.length hl]
  simp only [Option.bind_eq_bind, Option.some_bind]
  exact decListN_append f enc l hf rest

/-! ## Data model

The types serialized by the repository. `NodeId`/`TopicId` are 32 opaque
bytes, a relay URL is its UTF-8 string, a socket address is V4/V6 octets
plus a port, a `NodeAddr` is the iroh triple, `P2PTicket` is the struct of
src/p2p.rs (topic and nodes — the struct has exactly these two fields),
and `MessageBody` is the struct of src/lib.rs. -/

/-- Model of `std::net::SocketAddr` as serde serializes it in binary
formats: a V4/V6 variant of raw IP octets and a port. -/
inductive SockAddr where
  | v4 (ip : List Nat) (port : Nat)
  | v6 (ip : List Nat) (port : Nat)
deriving DecidableEq

/-- Well-formedness of a socket address: 4 or 16 IP octets, bytes bounded,
port a u16. -/
def SockAddr.WF : SockAddr → Prop
  | .v4 ip port => ip.length = 4 ∧ (∀ b ∈ ip, b < 256) ∧ port < 65536
  | .v6 ip port => ip.length = 16 ∧ (∀ b ∈ ip, b < 256) ∧ port < 65536

/-- Well-formedness of a modelled Rust string: byte values, valid UTF-8,
and a length that fits a u64. -/
def strWF (s : List Nat) : Prop :=
  (∀ b ∈ s, b < 256) ∧ utf8Valid s = true ∧ s.length < 18446744073709551616

/-- Model of iroh's `NodeAddr`: a 32-byte node id, an optional relay URL
(a string), and the direct socket addresses in their serialized (sorted)
order. -/
structure NodeAddr where
  node_id : List Nat
  relay_url : Option (List Nat)
  direct_addresses : List SockAddr
deriving DecidableEq

/-- Well-formedness of a node address. -/
def NodeAddr.WF (a : NodeAddr) : Prop :=
  a.node_id.length = 32 ∧ (∀ b ∈ a.node_id, b < 256) ∧
  (match a.relay_url with | none => True | some u => strWF u) ∧
  a.direct_addresses.length < 18446744073709551616 ∧
  ∀ sa ∈ a.direct_addresses, sa.WF

/-- The ticket struct of src/p2p.rs: a 32-byte topic id and the list of
known node addresses. These are its only fields. -/
structure P2PTicket where
  topic : List Nat
  nodes : List NodeAddr
deriving DecidableEq

/-- Well-formedness of a ticket. -/
def P2PTicket.WF (t : P2PTicket) : Prop :=
  t.topic.length = 32 ∧ (∀ b ∈ t.topic, b < 256) ∧
  t.nodes.length < 18446744073709551616 ∧ ∀ a ∈ t.nodes, a.WF

/-- The chat message struct of src/lib.rs: `from` is the optional 32-byte
sender `NodeId` (named `fromId` here because `from` is a Lean keyword),
`text` is the message string. -/
structure MessageBody where
  fromId : Option (List Nat)
  text : List Nat
deriving DecidableEq

/-- Well-formedness of a message body. -/
def MessageBody.WF (m : MessageBody) : Prop :=
  (match m.fromId with | none => True | some nid => nid.length = 32 ∧ ∀ b ∈ nid, b < 256) ∧
  strWF m.text

/-! ## Encoders and decoders of the model types -/

/-- Bincode encoding of a socket address: varint variant index, raw IP
octets, varint port. -/
def SockAddr.enc : SockAddr → List Nat
  | .v4 ip port => varintEnc 0 ++ ip ++ varintEnc port
  | .v6 ip port => varintEnc 1 ++ ip ++ varintEnc port

/-- Bincode decoding of a socket address. -/
def SockAddr.dec (l : List Nat) : Option (SockAddr × List Nat) := do
  let (tag, r) ← varintDec l
  if tag = 0 then
    let (ip, r2) ← readBytes 4 r
    let (port, r3) ← varintDec r2
    pure (.v4 ip port, r3)
  else if tag = 1 then
    let (ip, r2) ← readBytes 16 r
    let (port, r3) ← varintDec r2
    pure (.v6 ip port, r3)
  else none

/-- Bincode encoding of a node address: 32 raw node-id bytes, optional
relay URL, direct-address list. -/
def NodeAddr.enc (a : NodeAddr) : List Nat :=
  a.node_id ++ encOption encStr a.relay_url ++ encList SockAddr.enc a.direct_addresses

/-- Bincode decoding of a node address. -/
def NodeAddr.dec (l : List Nat) : Option (NodeAddr × List Nat) := do
  let (nid, r) ← readBytes 32 l
  let (url, r2) ← decOption decStr r
  let (addrs, r3) ← decList SockAddr.dec r2
  pure (⟨nid, url, addrs⟩, r3)

/-- Model of `P2PTicket::to_bytes`: the bincode encoding of the ticket, 32
raw topic bytes then the node list. -/
def P2PTicket.to_bytes (t : P2PTicket) : List Nat :=
  t.topic ++ encList NodeAddr.enc t.nodes

/-- Bincode decoding of a ticket, returning the ticket and the unconsumed
remainder of the input, as `decode_from_slice` does. -/
def decTicket (l : List Nat) : Option (P2PTicket × List Nat) := do
  let (topic, r) ← readBytes 32 l
  let (nodes, r2) ← decList NodeAddr.dec r
  pure (⟨topic, nodes⟩, r2)

/-- Model of `P2PTicket::from_bytes`: decode from the front of the slice
and drop the count of consumed bytes (`.map(|t| t.0)`) — trailing bytes
are ignored, not rejected. -/
def P2PTicket.from_bytes (l : List Nat) : Option P2PTicket :=
  (decTicket l).map Prod.fst

/-- Model of the `Display` impl of `P2PTicket`: bincode encode, base-32
encode, lowercase. The result is the list of bytes of the printed
string. -/
def P2PTicket.to_text (t : P2PTicket) : List Nat :=
  (b32encBytes t.to_bytes).map (fun v => asciiLower (b32char v))

/-- Model of the `FromStr` impl of `P2PTicket`: ASCII uppercase the input,
base-32 decode (alphabet check, length check, trailing-bit check), then
bincode decode. -/
def P2PTicket.from_text (s : List Nat) : Option P2PTicket := do
  let syms ← (s.map asciiUpper).mapM b32charVal
  let bytes ← b32decSyms syms
  P2PTicket.from_bytes bytes

/-- Bincode encoding of a message body: optional 32-byte sender id, then
the text. This is the encoding built by the `SendMessage` handler of
`P2PActor`. -/
def MessageBody.enc (m : MessageBody) : List Nat :=
  encOption id m.fromId ++ encStr m.text

/-- Bincode decoding of a message body from the front of a slice, with the
unconsumed remainder. -/
def MessageBody.dec (l : List Nat) : Option (MessageBody × List Nat) := do
  let (fid, r) ← decOption (readBytes 32) l
  let (txt, r2) ← decStr r
  pure (⟨fid, txt⟩, r2)

/-- Model of the decode step of `P2PActor::subscribe_loop`:
`decode_from_slice` keeping the value, ignoring the consumed count. -/
def decodeMessageBody (l : List Nat) : Option MessageBody :=
  (MessageBody.dec l).map Prod.fst

/-! ## Round trips through the wire codec -/

theorem decOption_encOption {α : Type} (f : List Nat → Option (α × List Nat))
    (enc : α → List Nat) (o : Option α)
    (hf : ∀ a ∈ o, ∀ rest, f (enc a ++ rest) = some (a, rest)) (rest : List Nat) :
    decOption f (encOption enc o ++ rest) = some (o, rest) := by
  cases o with
  | none => rfl
  | some a =>
      simp only [encOption, List.cons_append, decOption]
      rw [hf a rfl rest]
      rfl

theorem SockAddr_dec_enc (sa : SockAddr) (h : sa.WF) (rest : List Nat) :
    SockAddr.dec (sa.enc ++ rest) = some (sa, rest) := by
  cases sa with
  | v4 ip port =>
      obtain ⟨hlen, _, hport⟩ := h
      simp only [SockAddr.enc, SockAddr.dec, List.append_assoc]
      rw [varintDec_varintEnc 0 (by norm_num)]
      simp only [Option.bind_eq_bind, Option.some_bind, if_pos]
      rw [← hlen, readBytes_append]
      simp only [Option.some_bind]
      rw [varintDec_varintEnc port (by omega)]
      rfl
  | v6 ip port =>
      obtain ⟨hlen, _, hport⟩ := h
      simp only [SockAddr.enc, SockAddr.dec, List.append_assoc]
      rw [varintDec_varintEnc 1 (by norm_num)]
      simp only [Option.bind_eq_bind, Option.some_bind]
      rw [if_pos trivial]
      rw [← hlen, readBytes_append]
      simp only [Option.some_bind]
      rw [varintDec_varintEnc port (by omega)]
      rfl

theorem NodeAddr_dec_enc (a : NodeAddr) (h : a.WF) (rest : List Nat) :
    NodeAddr.dec (a.enc ++ rest) = some (a, rest) := by
  obtain ⟨hlen, _, hurl, haddrlen, haddrs⟩ := h
  simp only [NodeAddr.enc, NodeAddr.dec, List.append_assoc]
  rw [← hlen, readBytes_append]
  simp only [Option.bind_eq_bind, Option.some_bind]
  rw [decOption_encOption decStr encStr a.relay_url (fun u hu rest => by
    rw [Option.mem_def] at hu
    rw [hu] at hurl
    exact decStr_encStr u hurl.2.2 hurl.2.1 rest)]
  simp only [Option.some_bind]
  rw [decList_encList SockAddr.dec SockAddr.enc a.direct_addresses haddrlen
    (fun sa hsa rest => SockAddr_dec_enc sa (haddrs sa hsa) rest)]
  rfl

theorem decTicket_to_bytes (t : P2PTicket) (h : t.WF) (rest : List Nat) :
    decTicket (t.to_bytes ++ rest) = some (t, rest) := by
  obtain ⟨hlen, _, hnlen, hnodes⟩ := h
  simp only [P2PTicket.to_bytes, decTicket, List.append_assoc]
  rw [← hlen, readBytes_append]
  simp only [Option.bind_eq_bind, Option.some_bind]
  rw [decList_encList NodeAddr.dec NodeAddr.enc t.nodes hnlen
    (fun a ha rest => NodeAddr_dec_enc a (hnodes a ha) rest)]
  rfl

theorem from_bytes_to_bytes (t : P2PTicket) (h : t.WF) :
    P2PTicket.from_bytes t.to_bytes = some t := by
  unfold P2PTicket.from_bytes
  rw [← List.append_nil t.to_bytes, decTicket_to_bytes t h]
  rfl

/-! ## Byte bounds of the encoders -/

theorem encStr_lt (s : List Nat) (h : ∀ b ∈ s, b < 256) : ∀ b ∈ encStr s, b < 256 := by
  intro b hb
  rcases List.mem_append.1 hb with h1 | h1
  · exact varintEnc_lt _ b h1
  · exact h b h1

theorem SockAddr_enc_lt (sa : SockAddr) (h : sa.WF) : ∀ b ∈ sa.enc, b < 256 := by
  cases sa with
  | v4 ip port =>
      obtain ⟨_, hip, _⟩ := h
      intro b hb
      simp only [SockAddr.enc, List.append_assoc, List.mem_append] at hb
      rcases hb with h1 | h1 | h1
      · exact varintEnc_lt _ b h1
      · exact hip b h1
      · exact varintEnc_lt _ b h1
  | v6 ip port =>
      obtain ⟨_, hip, _⟩ := h
      intro b hb
      simp only [SockAddr.enc, List.append_assoc, List.mem_append] at hb
      rcases hb with h1 | h1 | h1
      · exact varintEnc_lt _ b h1
      · exact hip b h1
      · exact varintEnc_lt _ b h1

theorem encList_lt {α : Type} (enc : α → List Nat) (l : List α)
    (h : ∀ a ∈ l, ∀ b ∈ enc a, b < 256) : ∀ b ∈ encList enc l, b < 256 := by
  intro b hb
  rcases List.mem_append.1 hb with h1 | h1
  · exact varintEnc_lt _ b h1
  · obtain ⟨s, hs, hbs⟩ := List.mem_flatten.1 h1
    obtain ⟨a, ha, rfl⟩ := List.mem_map.1 hs
    exact h a ha b hbs

theorem NodeAddr_enc_lt (a : NodeAddr) (h : a.WF) : ∀ b ∈ a.enc, b < 256 := by
  obtain ⟨_, hnid, hurl, _, haddrs⟩ := h
  intro b hb
  simp only [NodeAddr.enc, List.append_assoc, List.mem_append] at hb
  rcases hb with h1 | h1 | h1
  · exact hnid b h1
  · cases hu : a.relay_url with
    | none => rw [hu] at h1; simp [encOption] at h1; omega
    | some u =>
        rw [hu] at h1
        simp only [encOption, List.mem_cons] at h1
        rcases h1 with rfl | h1
        · omega
        · rw [hu] at hurl
          exact encStr_lt u hurl.1 b h1
  · exact encList_lt SockAddr.enc a.direct_addresses
      (fun sa hsa => SockAddr_enc_lt sa (haddrs sa hsa)) b h1

theorem to_bytes_lt (t : P2PTicket) (h : t.WF) : ∀ b ∈ t.to_bytes, b < 256 := by
  obtain ⟨_, htopic, _, hnodes⟩ := h
  intro b hb
  rcases List.mem_append.1 hb with h1 | h1
  · exact htopic b h1
  · exact encList_lt NodeAddr.enc t.nodes
      (fun a ha => NodeAddr_enc_lt a (hnodes a ha)) b h1

/-! ## Round trip through the text codec -/

theorem mapM_b32charVal (syms : List Nat) (h : ∀ v ∈ syms, v < 32) :
    ((syms.map (fun v => asciiLower (b32char v))).map asciiUpper).mapM b32charVal =
      some syms := by
  induction syms with
  | nil => rfl
  | cons v vs ih =>
      have hv : v < 32 := h v (by simp)
      simp only [List.map_cons, List.mapM_cons]
      rw [asciiUpper_asciiLower_b32char v hv, b32charVal_b32char v hv]
      rw [ih (fun v hv2 => h v (by simp [hv2]))]
      rfl

/-! ## Decoders consume a determined prefix

Every bincode decoder below reads a determined sequence of bytes from the
front of its input and leaves the remainder untouched. This is the key to
the truncation property: a successful parse of a truncated input would
extend to a parse of the full input that leaves the cut-off suffix
unconsumed, contradicting the fact that decoding a full encoding consumes
it entirely. -/

/-- A decoder is exact when a successful run splits its input into a
consumed part and the returned remainder, and runs identically on the
consumed part followed by any other remainder. -/
def DecExact {α : Type} (dec : List Nat → Option (α × List Nat)) : Prop :=
  ∀ l v r, dec l = some (v, r) →
    ∃ c, l = c ++ r ∧ ∀ l2, dec (c ++ l2) = some (v, l2)

theorem readBytes_of_length (k : Nat) (c l2 : List Nat) (h : c.length = k) :
    readBytes k (c ++ l2) = some (c, l2) := by
  subst h
  exact readBytes_append c l2

theorem readBytes_exact (k : Nat) : DecExact (readBytes k) := by
  intro l v r h
  unfold readBytes at h
  split_ifs at h with hk
  obtain ⟨rfl, rfl⟩ : v = l.take k ∧ r = l.drop k := by
    simpa [eq_comm] using h
  refine ⟨l.take k, (List.take_append_drop k l).symm, fun l2 => ?_⟩
  exact readBytes_of_length k _ l2 (List.length_take_of_le hk)

theorem varintDec_exact : DecExact varintDec := by
  intro l v r h
  match l with
  | [] => exact absurd h (by simp [varintDec])
  | b :: r1 =>
      by_cases h1 : b < 251
      · simp only [varintDec, if_pos h1] at h
        obtain ⟨hv1, hv2⟩ : v = b ∧ r = r1 := by simpa [eq_comm] using h
        subst hv1; subst hv2
        exact ⟨[v], rfl, fun l2 => by simp [varintDec, h1]⟩
      · by_cases h2 : b = 251
        · subst h2
          match r1 with
          | a0 :: a1 :: r2 =>
              simp only [varintDec, if_neg h1, if_pos rfl] at h
              obtain ⟨hv1, hv2⟩ : v = a0 + 256 * a1 ∧ r = r2 := by simpa [eq_comm] using h
              subst hv1; subst hv2
              exact ⟨[251, a0, a1], rfl, fun l2 => by simp [varintDec]⟩
          | [] => simp [varintDec] at h
          | [a0] => simp [varintDec] at h
        · by_cases h3 : b = 252
          · subst h3
            match r1 with
            | a0 :: a1 :: a2 :: a3 :: r2 =>
                simp only [varintDec, if_neg h1, if_neg h2, if_pos rfl] at h
                obtain ⟨hv1, hv2⟩ : v = a0 + 256 * a1 + 65536 * a2 + 16777216 * a3 ∧ r = r2 := by
                  simpa [eq_comm] using h
                subst hv1; subst hv2
                exact ⟨[252, a0, a1, a2, a3], rfl, fun l2 => by simp [varintDec]⟩
            | [] => simp [varintDec] at h
            | [a0] => simp [varintDec] at h
            | [a0, a1] => simp [varintDec] at h
            | [a0, a1, a2] => simp [varintDec] at h
          · by_cases h4 : b = 253
            · subst h4
              match r1 with
              | a0 :: a1 :: a2 :: a3 :: a4 :: a5 :: a6 :: a7 :: r2 =>
                  simp only [varintDec, if_neg h1, if_neg h2, if_neg h3, if_pos rfl] at h
                  obtain ⟨hv1, hv2⟩ : v = a0 + 256 * a1 + 65536 * a2 + 16777216 * a3 +
                      4294967296 * a4 + 1099511627776 * a5 + 281474976710656 * a6 +
                      72057594037927936 * a7 ∧ r = r2 := by simpa [eq_comm] using h
                  subst hv1; subst hv2
                  exact ⟨[253, a0, a1, a2, a3, a4, a5, a6, a7], rfl,
                    fun l2 => by simp [varintDec]⟩
              | [] => simp [varintDec] at h
              | [a0] => simp [varintDec] at h
              | [a0, a1] => simp [varintDec] at h
              | [a0, a1, a2] => simp [varintDec] at h
              | [a0, a1, a2, a3] => simp [varintDec] at h
              | [a0, a1, a2, a3, a4] => simp [varintDec] at h
              | [a0, a1, a2, a3, a4, a5] => simp [varintDec] at h
              | [a0, a1, a2, a3, a4, a5, a6] => simp [varintDec] at h
            · simp [varintDec, if_neg h1, if_neg h2, if_neg h3, if_neg h4] at h

theorem decStr_exact : DecExact decStr := by
  intro l v r h
  unfold decStr at h
  cases e1 : varintDec l with
  | none => rw [e1] at h; simp at h
  | some p =>
      obtain ⟨n, r1⟩ := p
      rw [e1] at h
      simp only [Option.bind_eq_bind, Option.some_bind] at h
      cases e2 : readBytes n r1 with
      | none => rw [e2] at h; simp at h
      | some q =>
          obtain ⟨s, r2⟩ := q
          rw [e2] at h
          simp only [Option.some_bind] at h
          by_cases hu : utf8Valid s = true
          · rw [if_pos hu] at h
            obtain ⟨rfl, rfl⟩ : s = v ∧ r2 = r := by simpa using h
            obtain ⟨c1, hc1, hc1p⟩ := varintDec_exact l n r1 e1
            obtain ⟨c2, hc2, hc2p⟩ := readBytes_exact n r1 s r2 e2
            refine ⟨c1 ++ c2, by rw [hc1, hc2, List.append_assoc], fun l2 => ?_⟩
            unfold decStr
            rw [List.append_assoc, hc1p (c2 ++ l2)]
            simp only [Option.bind_eq_bind, Option.some_bind]
            rw [hc2p l2]
            simp [hu]
          · rw [if_neg hu] at h
            simp at h

theorem decOption_exact {α : Type} (f : List Nat → Option (α × List Nat)) (hf : DecExact f) :
    DecExact (decOption f) := by
  intro l v r h
  match l with
  | [] => simp [decOption] at h
  | 0 :: r1 =>
      obtain ⟨rfl, rfl⟩ : (none : Option α) = v ∧ r1 = r := by
        simpa [decOption] using h
      exact ⟨[0], rfl, fun l2 => by simp [decOption]⟩
  | 1 :: r1 =>
      simp only [decOption, Option.bind_eq_bind] at h
      cases e1 : f r1 with
      | none => rw [e1] at h; simp at h
      | some p =>
          obtain ⟨a, r2⟩ := p
          rw [e1] at h
          simp only [Option.some_bind] at h
          obtain ⟨rfl, rfl⟩ : some a = v ∧ r2 = r := by simpa using h
          obtain ⟨c1, hc1, hc1p⟩ := hf r1 a r2 e1
          refine ⟨1 :: c1, by rw [hc1]; rfl, fun l2 => ?_⟩
          simp only [List.cons_append, decOption, Option.bind_eq_bind]
          rw [hc1p l2]
          rfl
  | (n + 2) :: r1 => simp [decOption] at h

theorem decListN_exact {α : Type} (f : List Nat → Option (α × List Nat)) (hf : DecExact f) :
    ∀ n, DecExact (decListN f n) := by
  intro n
  induction n with
  | zero =>
      intro l v r h
      obtain ⟨rfl, rfl⟩ : ([] : List α) = v ∧ l = r := by simpa [decListN] using h
      exact ⟨[], rfl, fun l2 => by simp [decListN]⟩
  | succ n ih =>
      intro l v r h
      simp only [decListN, Option.bind_eq_bind] at h
      cases e1 : f l with
      | none => rw [e1] at h; simp at h
      | some p =>
          obtain ⟨a, r1⟩ := p
          rw [e1] at h
          simp only [Option.some_bind] at h
          cases e2 : decListN f n r1 with
          | none => rw [e2] at h; simp at h
          | some q =>
              obtain ⟨as, r2⟩ := q
              rw [e2] at h
              simp only [Option.some_bind] at h
              obtain ⟨rfl, rfl⟩ : a :: as = v ∧ r2 = r := by simpa using h
              obtain ⟨c1, hc1, hc1p⟩ := hf l a r1 e1
              obtain ⟨c2, hc2, hc2p⟩ := ih r1 as r2 e2
              refine ⟨c1 ++ c2, by rw [hc1, hc2, List.append_assoc], fun l2 => ?_⟩
              simp only [List.append_assoc, decListN, Option.bind_eq_bind]
              rw [hc1p (c2 ++ l2)]
              simp only [Option.some_bind]
              rw [hc2p l2]
              rfl

theorem decList_exact {α : Type} (f : List Nat → Option (α × List Nat)) (hf : DecExact f) :
    DecExact (decList f) := by
  intro l v r h
  simp only [decList, Option.bind_eq_bind] at h
  cases e1 : varintDec l with
  | none => rw [e1] at h; simp at h
  | some p =>
      obtain ⟨n, r1⟩ := p
      rw [e1] at h
      simp only [Option.some_bind] at h
      obtain ⟨c1, hc1, hc1p⟩ := varintDec_exact l n r1 e1
      obtain ⟨c2, hc2, hc2p⟩ := decListN_exact f hf n r1 v r h
      refine ⟨c1 ++ c2, by rw [hc1, hc2, List.append_assoc], fun l2 => ?_⟩
      simp only [List.append_assoc, decList, Option.bind_eq_bind]
      rw [hc1p (c2 ++ l2)]
      simp only [Option.some_bind]
      exact hc2p l2

theorem SockAddr_dec_exact : DecExact SockAddr.dec := by
  intro l v r h
  simp only [SockAddr.dec, Option.bind_eq_bind] at h
  cases e1 : varintDec l with
  | none => rw [e1] at h; simp at h
  | some p =>
      obtain ⟨tag, r1⟩ := p
      rw [e1] at h
      simp only [Option.some_bind] at h
      obtain ⟨c1, hc1, hc1p⟩ := varintDec_exact l tag r1 e1
      by_cases ht0 : tag = 0
      · subst ht0
        rw [if_pos rfl] at h
        cases e2 : readBytes 4 r1 with
        | none => rw [e2] at h; simp at h
        | some q =>
            obtain ⟨ip, r2⟩ := q
            rw [e2] at h
            simp only [Option.some_bind] at h
            cases e3 : varintDec r2 with
            | none => rw [e3] at h; simp at h
            | some w =>
                obtain ⟨port, r3⟩ := w
                rw [e3] at h
                simp only [Option.some_bind] at h
                obtain ⟨rfl, rfl⟩ : SockAddr.v4 ip port = v ∧ r3 = r := by simpa using h
                obtain ⟨c2, hc2, hc2p⟩ := readBytes_exact 4 r1 ip r2 e2
                obtain ⟨c3, hc3, hc3p⟩ := varintDec_exact r2 port r3 e3
                refine ⟨c1 ++ (c2 ++ c3), by rw [hc1, hc2, hc3]; simp, fun l2 => ?_⟩
                simp only [List.append_assoc, SockAddr.dec, Option.bind_eq_bind]
                rw [hc1p (c2 ++ (c3 ++ l2))]
                simp only [Option.some_bind]
                rw [if_pos trivial]
                rw [hc2p (c3 ++ l2)]
                simp only [Option.some_bind]
                rw [hc3p l2]
                rfl
      · by_cases ht1 : tag = 1
        · subst ht1
          rw [if_neg ht0, if_pos rfl] at h
          cases e2 : readBytes 16 r1 with
          | none => rw [e2] at h; simp at h
          | some q =>
              obtain ⟨ip, r2⟩ := q
              rw [e2] at h
              simp only [Option.some_bind] at h
              cases e3 : varintDec r2 with
              | none => rw [e3] at h; simp at h
              | some w =>
                  obtain ⟨port, r3⟩ := w
                  rw [e3] at h
                  simp only [Option.some_bind] at h
                  obtain ⟨rfl, rfl⟩ : SockAddr.v6 ip port = v ∧ r3 = r := by simpa using h
                  obtain ⟨c2, hc2, hc2p⟩ := readBytes_exact 16 r1 ip r2 e2
                  obtain ⟨c3, hc3, hc3p⟩ := varintDec_exact r2 port r3 e3
                  refine ⟨c1 ++ (c2 ++ c3), by rw [hc1, hc2, hc3]; simp, fun l2 => ?_⟩
                  simp only [List.append_assoc, SockAddr.dec, Option.bind_eq_bind]
                  rw [hc1p (c2 ++ (c3 ++ l2))]
                  simp only [Option.some_bind]
                  rw [if_pos trivial]
                  rw [hc2p (c3 ++ l2)]
                  simp only [Option.some_bind]
                  rw [hc3p l2]
                  rfl
        · rw [if_neg ht0, if_neg ht1] at h
          simp at h

theorem NodeAddr_dec_exact : DecExact NodeAddr.dec := by
  intro l v r h
  simp only [NodeAddr.dec, Option.bind_eq_bind] at h
  cases e1 : readBytes 32 l with
  | none => rw [e1] at h; simp at h
  | some p =>
      obtain ⟨nid, r1⟩ := p
      rw [e1] at h
      simp only [Option.some_bind] at h
      cases e2 : decOption decStr r1 with
      | none => rw [e2] at h; simp at h
      | some q =>
          obtain ⟨url, r2⟩ := q
          rw [e2] at h
          simp only [Option.some_bind] at h
          cases e3 : decList SockAddr.dec r2 with
          | none => rw [e3] at h; simp at h
          | some w =>
              obtain ⟨addrs, r3⟩ := w
              rw [e3] at h
              simp only [Option.some_bind] at h
              obtain ⟨rfl, rfl⟩ : NodeAddr.mk nid url addrs = v ∧ r3 = r := by simpa using h
              obtain ⟨c1, hc1, hc1p⟩ := readBytes_exact 32 l nid r1 e1
              obtain ⟨c2, hc2, hc2p⟩ := decOption_exact decStr decStr_exact r1 url r2 e2
              obtain ⟨c3, hc3, hc3p⟩ := decList_exact SockAddr.dec SockAddr_dec_exact r2 addrs r3 e3
              refine ⟨c1 ++ (c2 ++ c3), by rw [hc1, hc2, hc3]; simp, fun l2 => ?_⟩
              simp only [List.append_assoc, NodeAddr.dec, Option.bind_eq_bind]
              rw [hc1p (c2 ++ (c3 ++ l2))]
              simp only [Option.some_bind]
              rw [hc2p (c3 ++ l2)]
              simp only [Option.some_bind]
              rw [hc3p l2]
              rfl

theorem decTicket_exact : DecExact decTicket := by
  intro l v r h
  simp only [decTicket, Option.bind_eq_bind] at h
  cases e1 : readBytes 32 l with
  | none => rw [e1] at h; simp at h
  | some p =>
      obtain ⟨topic, r1⟩ := p
      rw [e1] at h
      simp only [Option.some_bind] at h
      cases e2 : decList NodeAddr.dec r1 with
      | none => rw [e2] at h; simp at h
      | some q =>
          obtain ⟨nodes, r2⟩ := q
          rw [e2] at h
          simp only [Option.some_bind] at h
          obtain ⟨rfl, rfl⟩ : P2PTicket.mk topic nodes = v ∧ r2 = r := by simpa using h
          obtain ⟨c1, hc1, hc1p⟩ := readBytes_exact 32 l topic r1 e1
          obtain ⟨c2, hc2, hc2p⟩ := decList_exact NodeAddr.dec NodeAddr_dec_exact r1 nodes r2 e2
          refine ⟨c1 ++ c2, by rw [hc1, hc2, List.append_assoc], fun l2 => ?_⟩
          simp only [List.append_assoc, decTicket, Option.bind_eq_bind]
          rw [hc1p (c2 ++ l2)]
          simp only [Option.some_bind]
          rw [hc2p l2]
          rfl

theorem from_bytes_take (t : P2PTicket) (h : t.WF) (m : Nat) (hm : m < t.to_bytes.length) :
    P2PTicket.from_bytes (t.to_bytes.take m) = none := by
  unfold P2PTicket.from_bytes
  cases e : decTicket (t.to_bytes.take m) with
  | none => rfl
  | some p =>
      obtain ⟨t2, r2⟩ := p
      obtain ⟨c, hc, hcp⟩ := decTicket_exact _ t2 r2 e
      have hfull : decTicket t.to_bytes = some (t, []) := by
        rw [← List.append_nil t.to_bytes]
        exact decTicket_to_bytes t h []
      have hsplit : t.to_bytes = c ++ (r2 ++ t.to_bytes.drop m) := by
        rw [← List.append_assoc, ← hc, List.take_append_drop]
      have : decTicket t.to_bytes = some (t2, r2 ++ t.to_bytes.drop m) := by
        have h2 := hcp (r2 ++ t.to_bytes.drop m)
        rw [← hsplit] at h2
        exact h2
      rw [hfull] at this
      obtain ⟨rfl, hnil⟩ : t = t2 ∧ [] = r2 ++ t.to_bytes.drop m := by simpa using this
      have hdrop : t.to_bytes.drop m = [] := by
        rcases List.append_eq_nil.1 hnil.symm with ⟨_, h2⟩
        exact h2
      have := List.drop_eq_nil_iff.1 hdrop
      omega

/-! ## Truncations of base-32 encodings decode to byte prefixes

Cutting symbols off the end of a base-32 encoding either fails to decode
(impossible length or non-zero trailing bits) or decodes to a strict
prefix of the original bytes. -/

theorem b32decSyms_take (B : List Nat) (hB : ∀ b ∈ B, b < 256) (k : Nat)
    (hk : k < (b32encBytes B).length) :
    b32decSyms ((b32encBytes B).take k) = none ∨
    ∃ m < B.length, b32decSyms ((b32encBytes B).take k) = some (B.take m) := by
  induction B using b32encBytes.induct generalizing k with
  | case1 b0 b1 b2 b3 b4 rest ih =>
      have h0 : b0 < 256 := hB b0 (by simp)
      have h1 : b1 < 256 := hB b1 (by simp)
      have h2 : b2 < 256 := hB b2 (by simp)
      have h3 : b3 < 256 := hB b3 (by simp)
      have h4 : b4 < 256 := hB b4 (by simp)
      have hre : ∀ b ∈ rest, b < 256 := fun b hb => hB b (by simp [hb])
      have hsyms : b32encBytes (b0 :: b1 :: b2 :: b3 :: b4 :: rest) =
          [b0 / 8, b0 % 8 * 4 + b1 / 64, b1 / 2 % 32, b1 % 2 * 16 + b2 / 16,
           b2 % 16 * 2 + b3 / 128, b3 / 4 % 32, b3 % 4 * 8 + b4 / 32, b4 % 32] ++
          b32encBytes rest := rfl
      rw [hsyms] at hk ⊢
      by_cases hk8 : k < 8
      · rw [List.take_append_of_le_length (by simp; omega)]
        interval_cases k
        · exact Or.inr ⟨0, by simp, rfl⟩
        · exact Or.inl rfl
        · simp only [List.take_succ_cons, List.take_zero]
          by_cases hc : (b0 % 8 * 4 + b1 / 64) % 4 = 0
          · refine Or.inr ⟨1, by simp, ?_⟩
            simp only [b32decSyms]
            rw [if_pos hc]
            refine congrArg some ?_
            have e0 : b0 / 8 * 8 + (b0 % 8 * 4 + b1 / 64) / 4 = b0 := by omega
            rw [e0, List.take_succ_cons, List.take_zero]
          · refine Or.inl ?_
            simp only [b32decSyms]
            rw [if_neg hc]
        · exact Or.inl rfl
        · simp only [List.take_succ_cons, List.take_zero]
          by_cases hc : (b1 % 2 * 16 + b2 / 16) % 16 = 0
          · refine Or.inr ⟨2, by simp, ?_⟩
            simp only [b32decSyms]
            rw [if_pos hc]
            refine congrArg some ?_
            have e0 : b0 / 8 * 8 + (b0 % 8 * 4 + b1 / 64) / 4 = b0 := by omega
            have e1 : (b0 % 8 * 4 + b1 / 64) % 4 * 64 + b1 / 2 % 32 * 2 +
                (b1 % 2 * 16 + b2 / 16) / 16 = b1 := by omega
            rw [e0, e1, List.take_succ_cons, List.take_succ_cons, List.take_zero]
          · refine Or.inl ?_
            simp only [b32decSyms]
            rw [if_neg hc]
        · simp only [List.take_succ_cons, List.take_zero]
          by_cases hc : (b2 % 16 * 2 + b3 / 128) % 2 = 0
          · refine Or.inr ⟨3, by simp, ?_⟩
            simp only [b32decSyms]
            rw [if_pos hc]
            refine congrArg some ?_
            have e0 : b0 / 8 * 8 + (b0 % 8 * 4 + b1 / 64) / 4 = b0 := by omega
            have e1 : (b0 % 8 * 4 + b1 / 64) % 4 * 64 + b1 / 2 % 32 * 2 +
                (b1 % 2 * 16 + b2 / 16) / 16 = b1 := by omega
            have e2 : (b1 % 2 * 16 + b2 / 16) % 16 * 16 + (b2 % 16 * 2 + b3 / 128) / 2 = b2 := by
              omega
            rw [e0, e1, e2, List.take_succ_cons, List.take_succ_cons, List.take_succ_cons,
              List.take_zero]
          · refine Or.inl ?_
            simp only [b32decSyms]
            rw [if_neg hc]
        · exact Or.inl rfl
        · simp only [List.take_succ_cons, List.take_zero]
          by_cases hc : (b3 % 4 * 8 + b4 / 32) % 8 = 0
          · refine Or.inr ⟨4, by simp, ?_⟩
            simp only [b32decSyms]
            rw [if_pos hc]
            refine congrArg some ?_
            have e0 : b0 / 8 * 8 + (b0 % 8 * 4 + b1 / 64) / 4 = b0 := by omega
            have e1 : (b0 % 8 * 4 + b1 / 64) % 4 * 64 + b1 / 2 % 32 * 2 +
                (b1 % 2 * 16 + b2 / 16) / 16 = b1 := by omega
            have e2 : (b1 % 2 * 16 + b2 / 16) % 16 * 16 + (b2 % 16 * 2 + b3 / 128) / 2 = b2 := by
              omega
            have e3 : (b2 % 16 * 2 + b3 / 128) % 2 * 128 + b3 / 4 % 32 * 4 +
                (b3 % 4 * 8 + b4 / 32) / 8 = b3 := by omega
            rw [e0, e1, e2, e3, List.take_succ_cons, List.take_succ_cons, List.take_succ_cons,
              List.take_succ_cons, List.take_zero]
          · refine Or.inl ?_
            simp only [b32decSyms]
            rw [if_neg hc]
      · have hlen8 : ([b0 / 8, b0 % 8 * 4 + b1 / 64, b1 / 2 % 32, b1 % 2 * 16 + b2 / 16,
            b2 % 16 * 2 + b3 / 128, b3 / 4 % 32, b3 % 4 * 8 + b4 / 32, b4 % 32] :
            List Nat).length = 8 := rfl
        have hk2 : k - 8 < (b32encBytes rest).length := by
          rw [List.length_append, hlen8] at hk
          omega
        rw [List.take_append_eq_append_take,
          List.take_of_length_le (by rw [hlen8]; omega), hlen8]
        simp only [List.cons_append, List.nil_append]
        rcases ih hre (k - 8) hk2 with hnone | ⟨m, hm, hsome⟩
        · refine Or.inl ?_
          simp only [b32decSyms, hnone]
        · refine Or.inr ⟨5 + m, by simp; omega, ?_⟩
          simp only [b32decSyms, hsome]
          refine congrArg some ?_
          have e0 : b0 / 8 * 8 + (b0 % 8 * 4 + b1 / 64) / 4 = b0 := by omega
          have e1 : (b0 % 8 * 4 + b1 / 64) % 4 * 64 + b1 / 2 % 32 * 2 +
              (b1 % 2 * 16 + b2 / 16) / 16 = b1 := by omega
          have e2 : (b1 % 2 * 16 + b2 / 16) % 16 * 16 + (b2 % 16 * 2 + b3 / 128) / 2 = b2 := by
            omega
          have e3 : (b2 % 16 * 2 + b3 / 128) % 2 * 128 + b3 / 4 % 32 * 4 +
              (b3 % 4 * 8 + b4 / 32) / 8 = b3 := by omega
          have e4 : (b3 % 4 * 8 + b4 / 32) % 8 * 32 + b4 % 32 = b4 := by omega
          rw [e0, e1, e2, e3, e4]
          rw [show (b0 :: b1 :: b2 :: b3 :: b4 :: rest) = [b0, b1, b2, b3, b4] ++ rest from rfl,
            List.take_append_eq_append_take,
            List.take_of_length_le (show ([b0, b1, b2, b3, b4] : List Nat).length ≤ 5 + m by
              simp),
            show 5 + m - ([b0, b1, b2, b3, b4] : List Nat).length = m from by simp]
          rfl
  | case2 =>
      simp [b32encBytes] at hk
  | case3 b0 =>
      have hsyms : b32encBytes [b0] = [b0 / 8, b0 % 8 * 4] := rfl
      rw [hsyms] at hk ⊢
      simp only [List.length_cons, List.length_nil] at hk
      interval_cases k
      · exact Or.inr ⟨0, by simp, rfl⟩
      · exact Or.inl rfl
  | case4 b0 b1 =>
      have h0 : b0 < 256 := hB b0 (by simp)
      have h1 : b1 < 256 := hB b1 (by simp)
      have hsyms : b32encBytes [b0, b1] =
          [b0 / 8, b0 % 8 * 4 + b1 / 64, b1 / 2 % 32, b1 % 2 * 16] := rfl
      rw [hsyms] at hk ⊢
      simp only [List.length_cons, List.length_nil] at hk
      interval_cases k
      · exact Or.inr ⟨0, by simp, rfl⟩
      · exact Or.inl rfl
      · simp only [List.take_succ_cons, List.take_zero]
        by_cases hc : (b0 % 8 * 4 + b1 / 64) % 4 = 0
        · refine Or.inr ⟨1, by simp, ?_⟩
          simp only [b32decSyms]
          rw [if_pos hc]
          refine congrArg some ?_
          have e0 : b0 / 8 * 8 + (b0 % 8 * 4 + b1 / 64) / 4 = b0 := by omega
          rw [e0, List.take_succ_cons, List.take_zero]
        · refine Or.inl ?_
          simp only [b32decSyms]
          rw [if_neg hc]
      · exact Or.inl rfl
  | case5 b0 b1 b2 =>
      have h0 : b0 < 256 := hB b0 (by simp)
      have h1 : b1 < 256 := hB b1 (by simp)
      have h2 : b2 < 256 := hB b2 (by simp)
      have hsyms : b32encBytes [b0, b1, b2] =
          [b0 / 8, b0 % 8 * 4 + b1 / 64, b1 / 2 % 32, b1 % 2 * 16 + b2 / 16,
           b2 % 16 * 2] := rfl
      rw [hsyms] at hk ⊢
      simp only [List.length_cons, List.length_nil] at hk
      interval_cases k
      · exact Or.inr ⟨0, by simp, rfl⟩
      · exact Or.inl rfl
      · simp only [List.take_succ_cons, List.take_zero]
        by_cases hc : (b0 % 8 * 4 + b1 / 64) % 4 = 0
        · refine Or.inr ⟨1, by simp, ?_⟩
          simp only [b32decSyms]
          rw [if_pos hc]
          refine congrArg some ?_
          have e0 : b0 / 8 * 8 + (b0 % 8 * 4 + b1 / 64) / 4 = b0 := by omega
          rw [e0, List.take_succ_cons, List.take_zero]
        · refine Or.inl ?_
          simp only [b32decSyms]
          rw [if_neg hc]
      · exact Or.inl rfl
      · simp only [List.take_succ_cons, List.take_zero]
        by_cases hc : (b1 % 2 * 16 + b2 / 16) % 16 = 0
        · refine Or.inr ⟨2, by simp, ?_⟩
          simp only [b32decSyms]
          rw [if_pos hc]
          refine congrArg some ?_
          have e0 : b0 / 8 * 8 + (b0 % 8 * 4 + b1 / 64) / 4 = b0 := by omega
          have e1 : (b0 % 8 * 4 + b1 / 64) % 4 * 64 + b1 / 2 % 32 * 2 +
              (b1 % 2 * 16 + b2 / 16) / 16 = b1 := by omega
          rw [e0, e1, List.take_succ_cons, List.take_succ_cons, List.take_zero]
        · refine Or.inl ?_
          simp only [b32decSyms]
          rw [if_neg hc]
  | case6 b0 b1 b2 b3 =>
      have h0 : b0 < 256 := hB b0 (by simp)
      have h1 : b1 < 256 := hB b1 (by simp)
      have h2 : b2 < 256 := hB b2 (by simp)
      have h3 : b3 < 256 := hB b3 (by simp)
      have hsyms : b32encBytes [b0, b1, b2, b3] =
          [b0 / 8, b0 % 8 * 4 + b1 / 64, b1 / 2 % 32, b1 % 2 * 16 + b2 / 16,
           b2 % 16 * 2 + b3 / 128, b3 / 4 % 32, b3 % 4 * 8] := rfl
      rw [hsyms] at hk ⊢
      simp only [List.length_cons, List.length_nil] at hk
      interval_cases k
      · exact Or.inr ⟨0, by simp, rfl⟩
      · exact Or.inl rfl
      · simp only [List.take_succ_cons, List.take_zero]
        by_cases hc : (b0 % 8 * 4 + b1 / 64) % 4 = 0
        · refine Or.inr ⟨1, by simp, ?_⟩
          simp only [b32decSyms]
          rw [if_pos hc]
          refine congrArg some ?_
          have e0 : b0 / 8 * 8 + (b0 % 8 * 4 + b1 / 64) / 4 = b0 := by omega
          rw [e0, List.take_succ_cons, List.take_zero]
        · refine Or.inl ?_
          simp only [b32decSyms]
          rw [if_neg hc]
      · exact Or.inl rfl
      · simp only [List.take_succ_cons, List.take_zero]
        by_cases hc : (b1 % 2 * 16 + b2 / 16) % 16 = 0
        · refine Or.inr ⟨2, by simp, ?_⟩
          simp only [b32decSyms]
          rw [if_pos hc]
          refine congrArg some ?_
          have e0 : b0 / 8 * 8 + (b0 % 8 * 4 + b1 / 64) / 4 = b0 := by omega
          have e1 : (b0 % 8 * 4 + b1 / 64) % 4 * 64 + b1 / 2 % 32 * 2 +
              (b1 % 2 * 16 + b2 / 16) / 16 = b1 := by omega
          rw [e0, e1, List.take_succ_cons, List.take_succ_cons, List.take_zero]
        · refine Or.inl ?_
          simp only [b32decSyms]
          rw [if_neg hc]
      · simp only [List.take_succ_cons, List.take_zero]
        by_cases hc : (b2 % 16 * 2 + b3 / 128) % 2 = 0
        · refine Or.inr ⟨3, by simp, ?_⟩
          simp only [b32decSyms]
          rw [if_pos hc]
          refine congrArg some ?_
          have e0 : b0 / 8 * 8 + (b0 % 8 * 4 + b1 / 64) / 4 = b0 := by omega
          have e1 : (b0 % 8 * 4 + b1 / 64) % 4 * 64 + b1 / 2 % 32 * 2 +
              (b1 % 2 * 16 + b2 / 16) / 16 = b1 := by omega
          have e2 : (b1 % 2 * 16 + b2 / 16) % 16 * 16 + (b2 % 16 * 2 + b3 / 128) / 2 = b2 := by
            omega
          rw [e0, e1, e2, List.take_succ_cons, List.take_succ_cons, List.take_succ_cons,
            List.take_zero]
        · refine Or.inl ?_
          simp only [b32decSyms]
          rw [if_neg hc]
      · exact Or.inl rfl

/-! ## Remaining parsing lemmas -/

theorem mapM_b32charVal_none (s : List Nat) (b : Nat) (hb : b ∈ s)
    (hbad : b32charVal (asciiUpper b) = none) :
    (s.map asciiUpper).mapM b32charVal = none := by
  induction s with
  | nil => simp at hb
  | cons a as ih =>
      simp only [List.map_cons, List.mapM_cons]
      rcases List.mem_cons.1 hb with rfl | hmem
      · rw [hbad]
        rfl
      · cases e : b32charVal (asciiUpper a) with
        | none => rfl
        | some v =>
            rw [ih hmem]
            rfl

theorem from_text_take (t : P2PTicket) (h : t.WF) (k : Nat) (hk : k < t.to_text.length) :
    P2PTicket.from_text (t.to_text.take k) = none := by
  have hb := to_bytes_lt t h
  have hs := b32encBytes_lt t.to_bytes hb
  unfold P2PTicket.to_text at hk ⊢
  rw [List.length_map] at hk
  rw [← List.map_take]
  unfold P2PTicket.from_text
  rw [mapM_b32charVal ((b32encBytes t.to_bytes).take k)
    (fun v hv => hs v (List.take_subset k _ hv))]
  simp only [Option.bind_eq_bind, Option.some_bind]
  rcases b32decSyms_take t.to_bytes hb k hk with hnone | ⟨m, hm, hsome⟩
  · rw [hnone]
    rfl
  · rw [hsome]
    simp only [Option.some_bind]
    exact from_bytes_take t h m hm

theorem from_bytes_short (l : List Nat) (h : l.length < 33) :
    P2PTicket.from_bytes l = none := by
  unfold P2PTicket.from_bytes decTicket
  by_cases h32 : 32 ≤ l.length
  · have hdrop : l.drop 32 = [] := List.drop_eq_nil_iff.2 (by omega)
    simp [readBytes, h32, hdrop, decList, varintDec]
  · simp [readBytes, h32]

theorem decMessageBody_enc (m : MessageBody) (h : m.WF) (rest : List Nat) :
    MessageBody.dec (MessageBody.enc m ++ rest) = some (m, rest) := by
  obtain ⟨hfid, htext⟩ := h
  unfold MessageBody.dec MessageBody.enc
  rw [List.append_assoc]
  rw [decOption_encOption (readBytes 32) id m.fromId (fun nid hnid rest => by
    rw [Option.mem_def] at hnid
    rw [hnid] at hfid
    exact readBytes_of_length 32 nid rest hfid.1)]
  simp only [Option.bind_eq_bind, Option.some_bind]
  rw [decStr_encStr m.text htext.2.2 htext.2.1]
  rfl

theorem decodeMessageBody_enc (m : MessageBody) (h : m.WF) :
    decodeMessageBody (MessageBody.enc m) = some m := by
  unfold decodeMessageBody
  rw [← List.append_nil (MessageBody.enc m), decMessageBody_enc m h]
  rfl

/-! ## Claim theorems for the ticket codec -/

theorem varintEnc_length_pos (n : Nat) : 1 ≤ (varintEnc n).length := by
  unfold varintEnc u64LE u32LE u16LE
  split_ifs <;> simp

/-- Modelled from the spec: the three-field Ticket of section 3 — topic
identifier, ordered node addresses, bootstrap peer address — wire-encoded
as its three fields in order. The struct in src/p2p.rs has no third field;
this definition exists only to compare the shape demanded by the spec with
the shape implemented by the code. -/
structure SpecTicket where
  topic : List Nat
  nodes : List NodeAddr
  bootstrap_node : NodeAddr

/-- Wire encoding of the spec's three-field ticket. -/
def SpecTicket.to_bytes (t : SpecTicket) : List Nat :=
  t.topic ++ encList NodeAddr.enc t.nodes ++ NodeAddr.enc t.bootstrap_node

/-- C1: parsing the text produced by encoding a valid ticket yields the
ticket back: from_text (to_text t) = t, where to_text is bincode encoding,
base-32, lowercasing, and from_text is uppercasing, base-32 decoding,
bincode decoding. -/
theorem ticket_text_roundtrip (t : P2PTicket) (h : t.WF) :
    P2PTicket.from_text t.to_text = some t := by
  have hb := to_bytes_lt t h
  unfold P2PTicket.to_text P2PTicket.from_text
  rw [mapM_b32charVal _ (b32encBytes_lt _ hb)]
  simp only [Option.bind_eq_bind, Option.some_bind]
  rw [b32decSyms_b32encBytes _ hb]
  simp only [Option.some_bind]
  exact from_bytes_to_bytes t h

/-- Witness for C1 at the ticket with the zero topic and no nodes. -/
theorem ticket_text_roundtrip_witness :
    P2PTicket.WF ⟨List.replicate 32 0, []⟩ ∧
    P2PTicket.from_text (P2PTicket.to_text ⟨List.replicate 32 0, []⟩) =
      some ⟨List.replicate 32 0, []⟩ := by
  have hwf : P2PTicket.WF ⟨List.replicate 32 0, []⟩ :=
    ⟨by simp, by simp, by norm_num, by simp⟩
  exact ⟨hwf, ticket_text_roundtrip _ hwf⟩

/-- C2: ticket parsing is case-insensitive: for every byte string s,
from_text of s, of its ASCII uppercasing and of its ASCII lowercasing all
agree, because FromStr uppercases before decoding. -/
theorem ticket_parse_case_insensitive (s : List Nat) :
    P2PTicket.from_text (s.map asciiUpper) = P2PTicket.from_text s ∧
    P2PTicket.from_text (s.map asciiLower) = P2PTicket.from_text s := by
  unfold P2PTicket.from_text
  have h1 : asciiUpper ∘ asciiUpper = asciiUpper := funext asciiUpper_asciiUpper
  have h2 : asciiUpper ∘ asciiLower = asciiUpper := funext asciiUpper_asciiLower
  constructor
  · rw [List.map_map, h1]
  · rw [List.map_map, h2]

/-- C3 counterexample: a valid-alphabet ticket string whose decoded bytes
are a complete ticket followed by a spurious extra encoded field (the byte
0, the encoding of an empty sequence) parses successfully to the ticket
instead of being rejected: decode_from_slice ignores unconsumed trailing
bytes. -/
theorem ticket_parse_accepts_trailing_field :
    P2PTicket.from_text
      ((b32encBytes (P2PTicket.to_bytes ⟨List.replicate 32 0, []⟩ ++ [0])).map
        (fun v => asciiLower (b32char v))) = some ⟨List.replicate 32 0, []⟩ := by
  decide

/-- C3 (amended): from_text rejects strings with bytes outside the base-32
alphabet, rejects every strict truncation of a valid ticket text, and
rejects decoded byte strings too short to hold the ticket fields; but a
complete ticket encoding followed by extra trailing bytes is accepted with
the trailing bytes ignored, not rejected. -/
theorem ticket_parse_rejects_malformed :
    (∀ s : List Nat, (∃ b ∈ s, b32charVal (asciiUpper b) = none) →
        P2PTicket.from_text s = none) ∧
    (∀ t : P2PTicket, t.WF → ∀ k, k < t.to_text.length →
        P2PTicket.from_text (t.to_text.take k) = none) ∧
    (∀ l : List Nat, l.length < 33 → P2PTicket.from_bytes l = none) ∧
    (∀ t : P2PTicket, t.WF → ∀ extra : List Nat,
        P2PTicket.from_bytes (t.to_bytes ++ extra) = some t) := by
  refine ⟨?_, ?_, ?_, ?_⟩
  · intro s hs
    obtain ⟨b, hb, hbad⟩ := hs
    unfold P2PTicket.from_text
    rw [mapM_b32charVal_none s b hb hbad]
    rfl
  · exact fun t h k hk => from_text_take t h k hk
  · exact from_bytes_short
  · intro t h extra
    unfold P2PTicket.from_bytes
    rw [decTicket_to_bytes t h extra]
    rfl

/-- Witness for C3 (amended): a string with the invalid byte 33, a 5-symbol
truncation of a valid ticket text, a 32-byte decoded string (topic only,
nodes field missing), and a full encoding with one trailing byte. -/
theorem ticket_parse_rejects_malformed_witness :
    P2PTicket.WF ⟨List.replicate 32 0, []⟩ ∧
    b32charVal (asciiUpper 33) = none ∧
    5 < (P2PTicket.to_text ⟨List.replicate 32 0, []⟩).length ∧
    (List.replicate 32 (0 : Nat)).length < 33 ∧
    P2PTicket.from_text [33] = none ∧
    P2PTicket.from_text ((P2PTicket.to_text ⟨List.replicate 32 0, []⟩).take 5) = none ∧
    P2PTicket.from_bytes (List.replicate 32 0) = none ∧
    P2PTicket.from_bytes (P2PTicket.to_bytes ⟨List.replicate 32 0, []⟩ ++ [0]) =
      some ⟨List.replicate 32 0, []⟩ := by
  have hwf : P2PTicket.WF ⟨List.replicate 32 0, []⟩ :=
    ⟨by simp, by simp, by norm_num, by simp⟩
  refine ⟨hwf, by decide, by decide, by simp,
    ticket_parse_rejects_malformed.1 [33] ⟨33, by simp, by decide⟩,
    ticket_parse_rejects_malformed.2.1 _ hwf 5 (by decide),
    ticket_parse_rejects_malformed.2.2.1 _ (by simp),
    ticket_parse_rejects_malformed.2.2.2 _ hwf [0]⟩

/-- C4 counterexample: the ticket produced by the code is not the encoding
of any three-field spec ticket: the bytes of the concrete ticket with zero
topic and no nodes leave no room for a bootstrap_node field, whatever its
value. -/
theorem ticket_lacks_bootstrap_field :
    ¬ ∃ bn : NodeAddr, SpecTicket.to_bytes ⟨List.replicate 32 0, [], bn⟩ =
      P2PTicket.to_bytes ⟨List.replicate 32 0, []⟩ := by
  intro hex
  obtain ⟨bn, h⟩ := hex
  have hlen := congrArg List.length h
  simp only [SpecTicket.to_bytes, P2PTicket.to_bytes, List.length_append] at hlen
  have h2 : 2 ≤ (NodeAddr.enc bn).length := by
    unfold NodeAddr.enc encList
    have h1 := varintEnc_length_pos bn.direct_addresses.length
    cases bn.relay_url <;> simp [encOption] <;> omega
  omega

/-- C4 (amended): the code's Ticket carries exactly two fields, a topic and
a node list, with no bootstrap_node; a ticket is nothing but that pair, and
both fields survive the wire encode/decode round trip. -/
theorem ticket_two_fields :
    ∀ t : P2PTicket, t = ⟨t.topic, t.nodes⟩ ∧
      (t.WF → (P2PTicket.from_bytes t.to_bytes).map P2PTicket.topic = some t.topic ∧
        (P2PTicket.from_bytes t.to_bytes).map P2PTicket.nodes = some t.nodes) := by
  intro t
  refine ⟨rfl, fun h => ?_⟩
  rw [from_bytes_to_bytes t h]
  exact ⟨rfl, rfl⟩

/-- Witness for C4 (amended) at the ticket with the zero topic and no
nodes. -/
theorem ticket_two_fields_witness :
    P2PTicket.WF ⟨List.replicate 32 0, []⟩ ∧
    (P2PTicket.from_bytes (P2PTicket.to_bytes ⟨List.replicate 32 0, []⟩)).map
      P2PTicket.topic = some (List.replicate 32 0) ∧
    (P2PTicket.from_bytes (P2PTicket.to_bytes ⟨List.replicate 32 0, []⟩)).map
      P2PTicket.nodes = some [] := by
  have hwf : P2PTicket.WF ⟨List.replicate 32 0, []⟩ :=
    ⟨by simp, by simp, by norm_num, by simp⟩
  exact ⟨hwf, (ticket_two_fields _).2 hwf⟩

/-- C10: a message body survives the wire codec round trip used by the
relay: decoding (as the receive loop does) the bytes produced by encoding
(as the publish handler does) yields the same sender id and text. -/
theorem message_body_roundtrip (m : MessageBody) (h : m.WF) :
    decodeMessageBody (MessageBody.enc m) = some m := by
  unfold decodeMessageBody
  rw [← List.append_nil (MessageBody.enc m), decMessageBody_enc m h]
  rfl

/-- Witness for C10 at a message with a 32-byte sender id and text made of
the two bytes of the string hi. -/
theorem message_body_roundtrip_witness :
    MessageBody.WF ⟨some (List.replicate 32 1), [104, 105]⟩ ∧
    decodeMessageBody (MessageBody.enc ⟨some (List.replicate 32 1), [104, 105]⟩) =
      some ⟨some (List.replicate 32 1), [104, 105]⟩ :=
  ⟨⟨⟨by decide, by decide⟩, by decide, by decide, by norm_num⟩,
   message_body_roundtrip _ ⟨⟨by decide, by decide⟩, by decide, by decide, by norm_num⟩⟩

/-! ## The message relay actor (src/p2p.rs)

`P2PActor` holds the subscriber vector and the optional gossip publish
handle. Its handlers are pure state transitions plus emitted effects:
`Subscribe` pushes a recipient, `SetSender` stores the handle,
`GotMessage` do_sends a clone of the message to every subscriber in vector
order, `SendMessage` panics via `expect` when no handle is set and
otherwise encodes the message and broadcasts the bytes. Recipients and the
`GossipSender` are opaque handles, modelled as `Nat` identifiers. -/

/-- State of `P2PActor`: subscribers in registration order, optional
publish handle. -/
structure P2PActorState where
  subscribers : List Nat
  sender : Option Nat
deriving DecidableEq

/-- Model of `P2PActor::new`: no subscribers, no sender. -/
def P2PActorState.new : P2PActorState := ⟨[], none⟩

/-- Model of the `Subscribe` handler: `self.subscribers.push(msg.0)`. -/
def handleSubscribe (st : P2PActorState) (r : Nat) : P2PActorState :=
  { st with subscribers := st.subscribers ++ [r] }

/-- Model of the `SetSender` handler: `self.sender = Some(msg.0)`. -/
def handleSetSender (st : P2PActorState) (s : Nat) : P2PActorState :=
  { st with sender := some s }

/-- Model of the `GotMessage` handler (deliver): the `do_send` effects, as
the list of (recipient, message clone) pairs in emission order. -/
def handleGotMessage (st : P2PActorState) (m : MessageBody) : List (Nat × MessageBody) :=
  st.subscribers.map (fun s => (s, m))

/-- Outcome of the `SendMessage` handler: a process panic (the `expect`
with message no P2P sender) or a broadcast of the encoded bytes. -/
inductive SendOutcome where
  | panicked
  | broadcast (bytes : List Nat)
deriving DecidableEq

/-- Model of the `SendMessage` handler: panic when `sender` is `None`,
otherwise bincode-encode the message and hand the bytes to the
transport. -/
def handleSendMessage (st : P2PActorState) (m : MessageBody) : SendOutcome :=
  match st.sender with
  | none => .panicked
  | some _ => .broadcast (MessageBody.enc m)

/-- One event of the gossip receive stream, as matched by
`subscribe_loop`: a received payload, or any of the other event kinds
(neighbor changes, lag), which the loop skips. -/
inductive GossipEvent where
  | received (content : List Nat)
  | other

/-- Model of one iteration of `P2PActor::subscribe_loop`: a received
payload is bincode-decoded, a failed decode is silently discarded, other
events are skipped; a successful decode is forwarded as a `GotMessage`. -/
def processEvent : GossipEvent → Option MessageBody
  | .received c => decodeMessageBody c
  | .other => none

/-- Deliveries forwarded by the receive loop over a finite stream segment:
the loop never stops early, so the result is the filtered map of the
per-item step. -/
def subscribeLoopDeliveries (events : List GossipEvent) : List MessageBody :=
  events.filterMap processEvent

theorem foldl_handleSubscribe (subs : List Nat) (st : P2PActorState) :
    (subs.foldl handleSubscribe st).subscribers = st.subscribers ++ subs := by
  induction subs generalizing st with
  | nil => simp
  | cons a as ih =>
      simp only [List.foldl_cons, ih, handleSubscribe]
      simp

/-! ## Claim theorems for the relay -/

/-- C5: with subscribers subs registered (in order, no two sharing an
identity) before a deliver call, the call emits the message to exactly the
registered subscribers in registration order, each receiving exactly one
copy, and a subscriber r registered strictly after the call receives no
copy from it. -/
theorem deliver_fanout (subs : List Nat) (m : MessageBody) (hnd : subs.Nodup)
    (r : Nat) (hr : r ∉ subs) :
    (subs.foldl handleSubscribe P2PActorState.new).subscribers = subs ∧
    handleGotMessage (subs.foldl handleSubscribe P2PActorState.new) m =
      subs.map (fun s => (s, m)) ∧
    (∀ s ∈ subs,
      ((handleGotMessage (subs.foldl handleSubscribe P2PActorState.new) m).map
        Prod.fst).count s = 1) ∧
    (∀ p ∈ handleGotMessage (subs.foldl handleSubscribe P2PActorState.new) m, p.1 ≠ r) := by
  have hsubs : (subs.foldl handleSubscribe P2PActorState.new).subscribers = subs := by
    rw [foldl_handleSubscribe]
    rfl
  refine ⟨hsubs, ?_, ?_, ?_⟩
  · unfold handleGotMessage
    rw [hsubs]
  · intro s hs
    unfold handleGotMessage
    rw [hsubs, List.map_map]
    have hfst : (Prod.fst ∘ fun s : Nat => (s, m)) = id := rfl
    rw [hfst, List.map_id]
    exact List.count_eq_one_of_mem hnd hs
  · intro p hp
    unfold handleGotMessage at hp
    rw [hsubs] at hp
    obtain ⟨s, hs, rfl⟩ := List.mem_map.1 hp
    exact fun he => hr (he ▸ hs)

/-- Witness for C5 with two distinct subscribers and a later third one. -/
theorem deliver_fanout_witness :
    ([0, 1] : List Nat).Nodup ∧ 2 ∉ ([0, 1] : List Nat) ∧
    handleGotMessage (([0, 1].foldl handleSubscribe P2PActorState.new)) ⟨none, []⟩ =
      [(0, ⟨none, []⟩), (1, ⟨none, []⟩)] ∧
    (∀ s ∈ [0, 1],
      ((handleGotMessage (([0, 1].foldl handleSubscribe P2PActorState.new)) ⟨none, []⟩).map
        Prod.fst).count s = 1) ∧
    (∀ p ∈ handleGotMessage (([0, 1].foldl handleSubscribe P2PActorState.new)) ⟨none, []⟩,
      p.1 ≠ 2) := by
  have h := deliver_fanout [0, 1] ⟨none, []⟩ (by decide) 2 (by decide)
  exact ⟨by decide, by decide, h.2.1, h.2.2.1, h.2.2.2⟩

/-- C6: a gossip payload that fails wire decoding is silently discarded by
the receive loop — it produces no delivery and the loop goes on, so a
following well-formed message is still decoded and delivered; the per-item
step is a total function, so no input can crash or end the loop. -/
theorem corrupt_gossip_resilience (bad : List Nat) (hbad : decodeMessageBody bad = none)
    (m : MessageBody) (hm : m.WF) (events : List GossipEvent) :
    subscribeLoopDeliveries (.received bad :: events) = subscribeLoopDeliveries events ∧
    subscribeLoopDeliveries (.received bad :: .received (MessageBody.enc m) :: events) =
      m :: subscribeLoopDeliveries events := by
  have hgood : decodeMessageBody (MessageBody.enc m) = some m := decodeMessageBody_enc m hm
  constructor
  · simp [subscribeLoopDeliveries, processEvent, hbad]
  · simp [subscribeLoopDeliveries, processEvent, hbad, hgood]

/-- Witness for C6: the one-byte payload 2 is not a valid Option tag and
fails decoding; the empty message still gets through right after it. -/
theorem corrupt_gossip_resilience_witness :
    decodeMessageBody [2] = none ∧
    MessageBody.WF ⟨none, []⟩ ∧
    subscribeLoopDeliveries [.received [2]] = [] ∧
    subscribeLoopDeliveries [.received [2], .received (MessageBody.enc ⟨none, []⟩)] =
      [⟨none, []⟩] := by
  have h := corrupt_gossip_resilience [2] (by decide) ⟨none, []⟩
    ⟨trivial, by decide, by decide, by norm_num⟩ []
  exact ⟨by decide, ⟨trivial, by decide, by decide, by norm_num⟩, h.1, h.2⟩

/-- C7: publishing with no publish handle set (sender = None, before
SetSender has run) panics the process rather than returning an error;
whenever a handle is present the handler encodes the message and hands the
bytes to the transport, so the panic branch is unreachable under that
precondition. -/
theorem publish_requires_sender (st : P2PActorState) (m : MessageBody) :
    (st.sender = none → handleSendMessage st m = .panicked) ∧
    (∀ h : Nat, st.sender = some h →
      handleSendMessage st m = .broadcast (MessageBody.enc m)) := by
  constructor
  · intro h
    simp [handleSendMessage, h]
  · intro s h
    simp [handleSendMessage, h]

/-- Witness for C7: the fresh actor panics on publish; after SetSender it
broadcasts the encoded message. -/
theorem publish_requires_sender_witness :
    P2PActorState.new.sender = none ∧
    (handleSetSender P2PActorState.new 0).sender = some 0 ∧
    handleSendMessage P2PActorState.new ⟨none, []⟩ = .panicked ∧
    handleSendMessage (handleSetSender P2PActorState.new 0) ⟨none, []⟩ =
      .broadcast (MessageBody.enc ⟨none, []⟩) :=
  ⟨rfl, rfl, (publish_requires_sender P2PActorState.new _).1 rfl,
   (publish_requires_sender _ _).2 0 rfl⟩

/-! ## Bootstrap client and history store (spec-modelled)

The repository sources under src contain neither the Bootstrap Client nor
the History Store; sections 4.4, 4.6 and 6 of the specification describe
them, and the models below follow those words. -/

/-- Failure cases of the bootstrap download, per section 4.6. -/
inductive BootstrapError where
  | oversize
  | decodeFailed
deriving DecidableEq

/-- Modelled from the spec: the Bootstrap Client's download step (the
client itself is not under src). The argument is the byte stream the
responder sent before half-closing; reading is bounded by the hard ceiling
of 512,000 bytes — more than that is a BootstrapError, never a silent
truncation — and a bounded response is wire-decoded into the ordered
message history. -/
def bootstrapDownload (response : List Nat) : Except BootstrapError (List MessageBody) :=
  if 512000 < response.length then .error .oversize
  else
    match decList MessageBody.dec response with
    | some (msgs, _) => .ok msgs
    | none => .error .decodeFailed

/-- C8: a response whose encoded history exceeds the 512,000-byte ceiling
makes download fail with a BootstrapError (oversize), not truncate
silently. -/
theorem bootstrap_size_ceiling (response : List Nat)
    (h : 512000 < response.length) :
    bootstrapDownload response = .error .oversize := by
  unfold bootstrapDownload
  rw [if_pos h]

/-- Witness for C8 at a response one byte over the ceiling. -/
theorem bootstrap_size_ceiling_witness :
    512000 < (List.replicate 512001 (0 : Nat)).length ∧
    bootstrapDownload (List.replicate 512001 0) = .error .oversize :=
  ⟨by rw [List.length_replicate]; norm_num,
   bootstrap_size_ceiling _ (by rw [List.length_replicate]; norm_num)⟩

/-- Modelled from the spec: the History Store's append (section 4.4, not
under src) — an ordered, append-only log; append places the message at the
end and cannot fail. -/
def historyAppend (h : List MessageBody) (m : MessageBody) : List MessageBody :=
  h ++ [m]

/-- Modelled from the spec: the History Store's snapshot — the full
ordered sequence as a value (a copy independent of the store in the pure
model). -/
def historySnapshot (h : List MessageBody) : List MessageBody := h

theorem foldl_historyAppend (ms : List MessageBody) (init : List MessageBody) :
    ms.foldl historyAppend init = init ++ ms := by
  induction ms generalizing init with
  | nil => simp
  | cons a as ih =>
      simp only [List.foldl_cons, historyAppend, ih]
      simp

/-- C9: append always succeeds and appends at the end, preserving order,
and a snapshot taken after a sequence of appends is exactly that sequence
of messages, complete and in append order, with no partial records. -/
theorem history_append_snapshot :
    (∀ (h : List MessageBody) (m : MessageBody), historyAppend h m = h ++ [m]) ∧
    (∀ ms : List MessageBody, historySnapshot (ms.foldl historyAppend []) = ms) := by
  constructor
  · intro h m
    rfl
  · intro ms
    rw [historySnapshot, foldl_historyAppend]
    rfl
